import Mathlib

/-!
# Verification of the commit-history resolution engine (`repo_commit.go`)

Shallow embedding of the read path of the version-control object graph:
reference resolution, the memoizing commit store, the chronological
merge-list builder (`commitsBefore`), the first-parent walk
(`CommitsBetween`), and the generic ancestry walker used by search,
pagination and path-filtered queries.

Commit identifiers (the 20-byte sha1 values) are modelled as `Nat`;
committer timestamps (`Committer.When`, a `time.Time`) as `Int` with
`Equal/After/Before` mapped to `=`/`>`/`<`.  Graph-recursive Go
functions are embedded with an explicit fuel argument (structural
recursion on the fuel), so that every definition is executable and
kernel-reducible; a `none` result at the top level means the fuel was
exhausted (the Go code would still be running) or an underlying lookup
failed, as noted per definition.
-/

/-- A decoded commit: identifier, ordered parent identifiers (parent 0 is
primary), committer timestamp, and message text.  The Go struct also
carries a back-reference to the owning repository, which is meaningless
in a pure embedding and is dropped. -/
structure Commit where
  id : Nat
  parents : List Nat
  whenT : Int
  message : List Char
deriving DecidableEq

/-- The pure value produced by `repo.getCommit(id)` when it succeeds:
the decoded commit for `id` with its `Id` field stamped
(`commit.Id = id` in the Go source).  The underlying object store and
decoder are modelled as one partial map `getC` from identifier to
decoded commit; the memoizing cache (proved value-transparent in the
Commit Store theorems below) is elided here. -/
def lookupCommit (getC : Nat → Option Commit) (id : Nat) : Option Commit :=
  (getC id).map fun c => { c with id := id }

/-! ## Chronological merge-list builder (`commitsBefore`) -/

/-- Result of the insertion scan inside `commitsBefore`: either the
scanned region already holds a commit with the same identifier
(`in.Value.(*Commit).Id.Equal(commit.Id)` → `return nil`, no
insertion), or the commit is inserted and we return the suffix with the
commit placed in it together with the commit's index in that suffix. -/
inductive ScanRes where
  | dup : ScanRes
  | ins : Nat → List Commit → ScanRes
deriving DecidableEq

/-- The scan loop of `commitsBefore` (`for { if in == nil ... }`),
acting on the part of the output list from the anchor element onward.
Mirrors the Go loop: stop and report a duplicate when the scanned
element holds the commit's id; insert after the scanned element when it
is the last one (`in.Next() == nil`), when its timestamp equals the
commit's (`When.Equal`), or when it is after the commit's while the
next element's is before it (`When.After && When.Before`); otherwise
advance (`in = in.Next()`).  The `[]` case is unreachable when the
anchor points at a live element (in Go, `in` starts non-nil and only
advances when `in.Next() != nil`). -/
def scanIns (c : Commit) : List Commit → ScanRes
  | [] => ScanRes.ins 0 [c]
  | x :: rest =>
    if x.id = c.id then ScanRes.dup
    else
      match rest with
      | [] => ScanRes.ins 1 [x, c]
      | y :: _ =>
        if x.whenT = c.whenT then ScanRes.ins 1 (x :: c :: rest)
        else if c.whenT < x.whenT ∧ y.whenT < c.whenT then ScanRes.ins 1 (x :: c :: rest)
        else
          match scanIns c rest with
          | ScanRes.dup => ScanRes.dup
          | ScanRes.ins k s' => ScanRes.ins (k + 1) (x :: s')

/-- The recursive body of `commitsBefore` together with its
per-parent loop (`for i := 0; i < commit.ParentCount(); i++`), merged
into one fuel-structural function so the recursion is structural:
`Sum.inl id` is a call `commitsBefore(lock, l, parent, id, 0)` (the
`lock` is threaded but never engaged in the Go source, and `limit` is
always 0; both are dropped), `Sum.inr ps` is the loop over the
remaining parent ids with the anchor `pr` already computed.  The
anchor (`parent *list.Element`) is the index of an element of `l`:
`none` means a nil anchor (root call), in which case the commit is
appended at the tail (`l.PushBack`); otherwise the scan runs from the
anchor and the commit is inserted after the break position
(`l.InsertAfter(commit, in)`).  The element of the freshly inserted
commit becomes the parents' anchor only when the commit is a merge
(`commit.ParentCount() > 1`); otherwise the parents reuse the incoming
anchor. -/
def cbAux (getC : Nat → Option Commit) :
    Nat → Option Nat → List Commit → Sum Nat (List Nat) → Option (List Commit)
  | 0, _, _, _ => none
  | fuel + 1, anchor, l, Sum.inl id =>
    match lookupCommit getC id with
    | none => none
    | some commit =>
      match anchor with
      | none =>
        let pr := if 1 < commit.parents.length then some l.length else none
        cbAux getC fuel pr (l ++ [commit]) (Sum.inr commit.parents)
      | some a =>
        match scanIns commit (l.drop a) with
        | ScanRes.dup => some l
        | ScanRes.ins k s' =>
          let pr := if 1 < commit.parents.length then some (a + k) else anchor
          cbAux getC fuel pr (l.take a ++ s') (Sum.inr commit.parents)
  | _ + 1, _, l, Sum.inr [] => some l
  | fuel + 1, pr, l, Sum.inr (p :: ps) =>
    match cbAux getC fuel pr l (Sum.inl p) with
    | none => none
    | some l' => cbAux getC fuel pr l' (Sum.inr ps)

/-- `repo.getCommitsBefore(id)`: fresh output list, nil anchor. -/
def getCommitsBefore (getC : Nat → Option Commit) (fuel : Nat) (id : Nat) :
    Option (List Commit) :=
  cbAux getC fuel none [] (Sum.inl id)

/-- The diamond ancestry of the merge-list claim: a merge `m` with
parents `b` then `a`, each of which has sole parent `r`, which is a
root.  Timestamps are the given ones; messages are empty. -/
def diamondRepo (m b a r : Nat) (tm tb ta tr : Int) : Nat → Option Commit :=
  fun i =>
    if i = m then some ⟨m, [b, a], tm, []⟩
    else if i = b then some ⟨b, [r], tb, []⟩
    else if i = a then some ⟨a, [r], ta, []⟩
    else if i = r then some ⟨r, [], tr, []⟩
    else none

/-- The ordering the merge-list claim asserts: no element's committer
timestamp is before (less than) that of the element that follows it,
i.e. timestamps are non-increasing along the list. -/
def TimeOrdered (l : List Commit) : Prop :=
  List.Chain' (fun x y => y.whenT ≤ x.whenT) l

/-- A two-commit chain whose child (`0`, timestamp `0`) is older than
its sole parent (`1`, timestamp `5`): committer clocks are arbitrary,
so such ancestries exist. -/
def skewRepo : Nat → Option Commit :=
  fun i =>
    if i = 0 then some ⟨0, [1], 0, []⟩
    else if i = 1 then some ⟨1, [], 5, []⟩
    else none

/-- The monotone-clock hypothesis of the amended ordering claim: no
parent has a committer timestamp after its child's. -/
def Mono (getC : Nat → Option Commit) : Prop :=
  ∀ id c, lookupCommit getC id = some c →
    ∀ p ∈ c.parents, ∀ pc, lookupCommit getC p = some pc → pc.whenT ≤ c.whenT

/-- The prefix of the output list that a `commitsBefore` call never
touches: everything up to and including the anchor element (the whole
current list for a nil anchor, whose recursion only appends). -/
@[reducible] def anchorBound : Option Nat → List Commit → Nat
  | none, l => l.length
  | some a, _ => a + 1

/-- Invariant tying an anchor to the commit about to be processed: a
nil anchor requires the commit to be no more recent than the list's
last element (it will be appended at the tail); a live anchor must
point at an element at least as recent as the commit. -/
@[reducible] def AnchorHyp (getC : Nat → Option Commit) (l : List Commit) :
    Option Nat → Nat → Prop
  | none, id => ∀ c, lookupCommit getC id = some c →
      ∀ z, l.getLast? = some z → c.whenT ≤ z.whenT
  | some a, id => ∃ av, l[a]? = some av ∧
      ∀ c, lookupCommit getC id = some c → c.whenT ≤ av.whenT

/-- `AnchorHyp` lifted to the two call shapes of `cbAux`; a nil anchor
reaches a parent loop only for at most one parent (the Go code switches
to the fresh element as anchor whenever there is more than one). -/
@[reducible] def TaskOK (getC : Nat → Option Commit) (l : List Commit) (anchor : Option Nat) :
    Sum Nat (List Nat) → Prop
  | Sum.inl id => AnchorHyp getC l anchor id
  | Sum.inr ps => (anchor = none → ps.length ≤ 1) ∧ ∀ p ∈ ps, AnchorHyp getC l anchor p

lemma take_eq_of_take_eq {α : Type} {l₁ l₂ : List α} {m n : Nat} (h : m ≤ n)
    (ht : l₁.take n = l₂.take n) : l₁.take m = l₂.take m := by
  have h1 : l₁.take m = (l₁.take n).take m := by
    rw [List.take_take, inf_eq_left.mpr h]
  have h2 : l₂.take m = (l₂.take n).take m := by
    rw [List.take_take, inf_eq_left.mpr h]
  rw [h1, h2, ht]

/-! ## Reference resolution (`getCommitIdOfRef`, `getCommitIdOfPackedRef`) -/

/-- Prefix test used to model `strings.Contains`: does `needle` match
the start of `hay`? -/
def headMatches : List Char → List Char → Bool
  | [], _ => true
  | _ :: _, [] => false
  | n :: ns, h :: hs => n = h && headMatches ns hs

/-- `strings.Contains(hay, needle)`: `needle` occurs as a contiguous
substring of `hay`. -/
def hasSub (needle : List Char) : List Char → Bool
  | [] => needle.isEmpty
  | h :: hs => headMatches needle (h :: hs) || hasSub needle hs

/-- Errors of the reference resolver, one per `return`-with-error site
of the Go source. -/
inductive RefError where
  | packedMissing : RefError
  | packedNotFound : RefError
  | shaTooShort : RefError
  | badSha : List Char → RefError
deriving DecidableEq

/-- The on-disk state the resolver reads: loose ref files keyed by ref
path (`none` models a failing `ioutil.ReadFile`), and the packed-refs
table as the list of its scanner lines (`none` models a failing
`os.Open`).  A `bufio.Scanner` line never contains a newline; theorems
needing that carry it as a hypothesis. -/
structure RefFS where
  loose : List Char → Option (List Char)
  packed : Option (List (List Char))

/-- `getCommitIdOfPackedRef`: scan the packed-refs lines and return the
bytes of the first line containing `refpath` as a substring. -/
def getCommitIdOfPackedRef (fs : RefFS) (refpath : List Char) :
    Except RefError (List Char) :=
  match fs.packed with
  | none => Except.error RefError.packedMissing
  | some lines =>
    match lines.find? (fun line => hasSub refpath line) with
    | some line => Except.ok line
    | none => Except.error RefError.packedNotFound

/-- The `f, err` pair after the read-loose-or-fall-back-to-packed
prologue of `getCommitIdOfRef`. -/
def refContent (fs : RefFS) (refpath : List Char) : Except RefError (List Char) :=
  match fs.loose refpath with
  | some content => Except.ok content
  | none => getCommitIdOfPackedRef fs refpath

/-- Characters of `s` before its first newline, or `none` when `s` has
no newline. -/
def takeToNl : List Char → Option (List Char)
  | [] => none
  | c :: rest => if c = '\n' then some [] else (takeToNl rest).map (c :: ·)

/-- `refRexp.FindAllStringSubmatch(s, 1)` for `refRexp = "ref: (.*)\n"`,
reduced to the first capture group.  A match is the leftmost occurrence
of the literal `"ref: "` that has a newline somewhere to its right:
`.*` cannot cross a newline and greedily runs up to the first one,
which the pattern then consumes.  When the leftmost `"ref: "` has no
later newline, no occurrence further right can have one either, so the
regexp does not match at all — hence the single scan below is the
regexp's exact behaviour. -/
def refMatch : List Char → Option (List Char)
  | [] => none
  | c :: rest =>
    if headMatches ['r', 'e', 'f', ':', ' '] (c :: rest) then takeToNl (rest.drop 4)
    else refMatch rest

/-- Modelled from the spec: hex-digit test for the identifier's
canonical textual form, "40 lowercase hex characters" (§3).  The
`IsSha1` implementation itself is not part of `src/`. -/
def isHexChar (c : Char) : Bool :=
  ('0' ≤ c && c ≤ '9') || ('a' ≤ c && c ≤ 'f')

/-- Modelled from the spec: `IsSha1` accepts exactly the 40-character
hex strings (§3 and §8: "any id string not exactly 40 valid hex
characters fails resolution with a malformed-input error"). -/
def IsSha1 (s : List Char) : Bool :=
  s.length = 40 && s.all isHexChar

/-- `getCommitIdOfRef`, fuel-indexed: the Go body is a `goto start`
loop with no cycle guard, so it need not terminate; a `none` result
means the loop is still running after `fuel` iterations. -/
def getCommitIdOfRef (fs : RefFS) : Nat → List Char → Option (Except RefError (List Char))
  | 0, _ => none
  | fuel + 1, refpath =>
    match refContent fs refpath with
    | Except.error e => some (Except.error e)
    | Except.ok f =>
      match refMatch f with
      | some target => getCommitIdOfRef fs fuel target
      | none =>
        if f.length < 40 then some (Except.error RefError.shaTooShort)
        else if IsSha1 (f.take 40) then some (Except.ok (f.take 40))
        else some (Except.error (RefError.badSha (f.take 40)))

/-- The exact content of a symbolic ref file: `"ref: <target>\n"`. -/
def refLine (target : List Char) : List Char :=
  'r' :: 'e' :: 'f' :: ':' :: ' ' :: (target ++ ['\n'])

/-- A ref whose loose file names itself as its symbolic target. -/
def selfRefFS : RefFS :=
  { loose := fun q => if q = ['s'] then some (refLine ['s']) else none
    packed := none }

/-- Two refs each naming the other as symbolic target. -/
def twoCycleFS : RefFS :=
  { loose := fun q =>
      if q = ['a'] then some (refLine ['b'])
      else if q = ['b'] then some (refLine ['a'])
      else none
    packed := none }

instance {e a : Type} [DecidableEq e] [DecidableEq a] : DecidableEq (Except e a)
  | Except.ok x, Except.ok y =>
    decidable_of_iff (x = y) (by simp)
  | Except.error u, Except.error v =>
    decidable_of_iff (u = v) (by simp)
  | Except.ok _, Except.error _ => isFalse (fun h => Except.noConfusion h)
  | Except.error _, Except.ok _ => isFalse (fun h => Except.noConfusion h)

/-- A 40-character lowercase hex identifier used by the witnesses. -/
def hex40 : List Char := "0123456789abcdef0123456789abcdef01234567".toList

/-- Concrete ref store exercising all three resolution paths. -/
def witnessFS : RefFS :=
  { loose := fun q =>
      if q = "refs/heads/master".toList then some (refLine "refs/heads/dev".toList)
      else if q = "refs/heads/dev".toList then some hex40
      else none
    packed := some [hex40 ++ (' ' :: "refs/tags/v1".toList)] }

/-- A loose ref whose content is too short to be an identifier. -/
def shortFS : RefFS :=
  { loose := fun q => if q = ['h'] then some ['z', 'z'] else none
    packed := none }

/-! ## Commit store (`getCommit`): memoizing cache -/

/-- `repo.getCommit(id)` with the per-repository cache made explicit.
The object store (`GetRawObject` + `ReadAll`, collapsed into one
fallible byte fetch, both being I/O of the same raw object) and the
commit decoder (`parseCommitData`) are the spec's external
collaborators and are parameters; the Go `nil`-map lazy allocation is
modelled by starting from an everywhere-`none` cache, which is
observationally identical.  Returns the commit (or `none` on error),
the cache after the call, and whether the raw-object fetch was
performed. -/
def getCommit (store : Nat → Option (List Char)) (decode : List Char → Option Commit)
    (cache : Nat → Option Commit) (id : Nat) :
    Option Commit × (Nat → Option Commit) × Bool :=
  match cache id with
  | some c => (some c, cache, false)
  | none =>
    match store id with
    | none => (none, cache, true)
    | some data =>
      match decode data with
      | none => (none, cache, true)
      | some c0 =>
        let c := { c0 with id := id }
        (some c, fun i => if i = id then some c else cache i, true)

/-- Witness store for the commit-store theorems: object `5` decodes,
object `6` is missing. -/
def wStore : Nat → Option (List Char) :=
  fun i => if i = 5 then some ['x'] else none

def wDecode : List Char → Option Commit :=
  fun _ => some ⟨0, [], 7, []⟩

def wCache : Nat → Option Commit := fun _ => none

/-! ## First-parent walk (`CommitsBetween`) -/

/-- The loop of `CommitsBetween`: stop (without appending) on a commit
whose id equals `before`'s; append and stop on a parentless commit;
otherwise append and step to parent 0 (`cur.Parent(0)`, a `getCommit`
of `ParentId(0)`), failing if that lookup fails. -/
def cbLoop (getC : Nat → Option Commit) (before : Commit) :
    Nat → Commit → Option (List Commit)
  | 0, _ => none
  | fuel + 1, cur =>
    if cur.id = before.id then some []
    else
      match cur.parents with
      | [] => some [cur]
      | p0 :: _ =>
        match lookupCommit getC p0 with
        | none => none
        | some next => (cbLoop getC before fuel next).map (cur :: ·)

/-- `repo.CommitsBetween(last, before)`: an empty list when `last` has
no parents (the Go guard also covers a nil `last`, inexpressible for a
value), otherwise the loop above. -/
def commitsBetween (getC : Nat → Option Commit) (fuel : Nat)
    (last : Commit) (before : Commit) : Option (List Commit) :=
  if last.parents = [] then some [] else cbLoop getC before fuel last

/-- The first-parent chain from a commit down to the first parentless
commit: the reference description the claim walks. -/
def fpChain (getC : Nat → Option Commit) : Nat → Commit → Option (List Commit)
  | 0, _ => none
  | fuel + 1, c =>
    match c.parents with
    | [] => some [c]
    | p0 :: _ =>
      match lookupCommit getC p0 with
      | none => none
      | some next => (fpChain getC fuel next).map (c :: ·)

/-- The list the claim's wording predicts: every visited commit of the
first-parent chain up to (excluding) the first one whose id equals
`before`'s. -/
def commitsBetweenClaim (chain : List Commit) (before : Commit) : List Commit :=
  chain.takeWhile (fun c => c.id ≠ before.id)

/-- A repository with no objects (never consulted in the edge case). -/
def emptyRepo : Nat → Option Commit := fun _ => none

/-- Three-commit first-parent chain used by the `CommitsBetween`
witness. -/
def chainRepo : Nat → Option Commit :=
  fun i =>
    if i = 0 then some ⟨0, [1], 3, []⟩
    else if i = 1 then some ⟨1, [2], 2, []⟩
    else if i = 2 then some ⟨2, [], 1, []⟩
    else none

/-! ## Ancestry walker and visitors (modelled from the spec)

`walkHistory` / `walkFilteredHistory` and the visitor constructors
(`makePager`, `makeHistorySearcher`, `makePathChecker`/`Comparator`)
are called from `src/repo_commit.go` but their bodies are not part of
`src/`; they are modelled here from the spec's §4.3–§4.4 contracts. -/

/-- Modelled from the spec: the visitor's verdict on a commit —
keep-and-continue, skip-and-continue, or stop. -/
inductive VisitAct where
  | keep : VisitAct
  | pass : VisitAct
  | halt : VisitAct
deriving DecidableEq

/-- State of a traversal: identifiers already visited, commits kept (in
visitation order), the visitor's own state, and the stop flag. -/
structure WalkSt (sg : Type) where
  seen : List Nat
  out : List Commit
  vs : sg
  halted : Bool
deriving DecidableEq

/-- Modelled from the spec (§4.3): generic depth-first traversal of the
parent graph.  Each identifier is visited at most once (`seen`); a
`stop` verdict terminates the traversal immediately; when a relevance
filter is supplied, an irrelevant commit is not offered to the visitor
but its ancestry is still traversed.  `Sum.inl` visits one commit,
`Sum.inr` walks a parent list in order. -/
def walkAux {sg : Type} (getC : Nat → Option Commit)
    (step : sg → Commit → VisitAct × sg) (rel : Option (Commit → Bool)) :
    Nat → WalkSt sg → Sum Nat (List Nat) → Option (WalkSt sg)
  | 0, _, _ => none
  | fuel + 1, st, Sum.inl id =>
    if st.halted then some st
    else if st.seen.contains id then some st
    else
      match lookupCommit getC id with
      | none => none
      | some c =>
        let st1 : WalkSt sg := { st with seen := id :: st.seen }
        if (match rel with | none => true | some r => r c) then
          match step st1.vs c with
          | (VisitAct.keep, vs') =>
            walkAux getC step rel fuel
              { st1 with out := st1.out ++ [c], vs := vs' } (Sum.inr c.parents)
          | (VisitAct.pass, vs') =>
            walkAux getC step rel fuel { st1 with vs := vs' } (Sum.inr c.parents)
          | (VisitAct.halt, vs') => some { st1 with vs := vs', halted := true }
        else walkAux getC step rel fuel st1 (Sum.inr c.parents)
  | _ + 1, st, Sum.inr [] => some st
  | fuel + 1, st, Sum.inr (p :: ps) =>
    match walkAux getC step rel fuel st (Sum.inl p) with
    | none => none
    | some st' => walkAux getC step rel fuel st' (Sum.inr ps)

/-- Modelled from the spec (§4.3): the Pager visitor
`makePager(filter, skip, take)` — skip the first `skip` would-be-kept
commits, keep the next `take`, then stop; a commit failing the inner
filter is skipped without counting. -/
def pagerStep (filter : Option (Commit → Bool)) :
    Nat × Nat → Commit → VisitAct × (Nat × Nat)
  | (toSkip, toTake), c =>
    if (match filter with | none => true | some f => f c) then
      if 0 < toSkip then (VisitAct.pass, (toSkip - 1, toTake))
      else if 0 < toTake then (VisitAct.keep, (toSkip, toTake - 1))
      else (VisitAct.halt, (toSkip, toTake))
    else (VisitAct.pass, (toSkip, toTake))

def ItemsPerPage : Nat := 50

def ItemsPerSearch : Nat := 100

/-- Modelled from the spec (§4.3): the Searcher's per-commit test, a
case-insensitive substring match of the keyword in the message. -/
def matchKeyword (keyword msg : List Char) : Bool :=
  hasSub (keyword.map Char.toLower) (msg.map Char.toLower)

/-- `repo.searchCommits(id, keyword)`: walk history with
`makePager(searcher, 0, ItemsPerSearch)`. -/
def searchCommits (getC : Nat → Option Commit) (fuel : Nat) (id : Nat)
    (keyword : List Char) : Option (List Commit) :=
  (walkAux getC (pagerStep (some (fun c => matchKeyword keyword c.message))) none fuel
      ⟨[], [], (0, ItemsPerSearch), false⟩ (Sum.inl id)).map WalkSt.out

/-- `repo.getCommitOfRelPath(id, path)`: filtered walk with
`makePager(checker, 0, 1)`; an empty result list yields `(nil, nil)` —
modelled as `some none` — rather than an error.  The path checker and
comparator are both abstracted into the relevance predicate `rel`. -/
def getCommitOfRelPath (getC : Nat → Option Commit) (rel : Commit → Bool)
    (fuel : Nat) (id : Nat) : Option (Option Commit) :=
  match walkAux getC (pagerStep (some rel)) (some rel) fuel
      ⟨[], [], (0, 1), false⟩ (Sum.inl id) with
  | none => none
  | some st => some st.out.head?

/-- A relevance filter reporting every commit untouched. -/
def relFalse : Commit → Bool := fun _ => false

/-! ## Theorems -/

/-- C1: for every diamond `M(parents B,A) → B(parent R), A(parent R) → R`
with committer timestamps `t(M) > t(B) > t(A) > t(R)`, the merge-list
builder returns `[M, B, A, R]`, each commit exactly once; in particular
`R` is not duplicated although it is reachable through both `B` and
`A`. -/
theorem commitsBefore_diamond (m b a r : Nat) (tm tb ta tr : Int)
    (hmb : m ≠ b) (hma : m ≠ a) (hmr : m ≠ r)
    (hba : b ≠ a) (hbr : b ≠ r) (har : a ≠ r)
    (h1 : tb < tm) (h2 : ta < tb) (h3 : tr < ta) :
    getCommitsBefore (diamondRepo m b a r tm tb ta tr) 9 m =
      some [⟨m, [b, a], tm, []⟩, ⟨b, [r], tb, []⟩, ⟨a, [r], ta, []⟩, ⟨r, [], tr, []⟩] := by
  have hbm : ¬ (b = m) := fun h => hmb h.symm
  have ham : ¬ (a = m) := fun h => hma h.symm
  have hab : ¬ (a = b) := fun h => hba h.symm
  have hrm : ¬ (r = m) := fun h => hmr h.symm
  have hrb : ¬ (r = b) := fun h => hbr h.symm
  have hra : ¬ (r = a) := fun h => har h.symm
  have n1 : ¬ (tb < ta) := by omega
  have n2 : ¬ (tb < tr) := by omega
  have n3 : ¬ (ta < tr) := by omega
  have e1 : ¬ (tm = tr) := by omega
  have e2 : ¬ (tm = ta) := by omega
  have e3 : ¬ (tb = ta) := by omega
  have e4 : ¬ (tb = tr) := by omega
  have e5 : ¬ (ta = tr) := by omega
  have p1 : tr < tm := by omega
  have p2 : tr < tb := by omega
  have p3 : ta < tm := by omega
  simp [getCommitsBefore, cbAux, lookupCommit, diamondRepo, scanIns,
    hmb, hma, hmr, hba, hbr, har, hbm, ham, hab, hrm, hrb, hra,
    n1, n2, n3, e1, e2, e3, e4, e5, p1, p2, p3, h1, h2, h3]

/-- Witness for `commitsBefore_diamond`: the diamond at concrete ids
`0,1,2,3` and timestamps `30 > 20 > 10 > 5`. -/
theorem commitsBefore_diamond_witness :
    getCommitsBefore (diamondRepo 0 1 2 3 30 20 10 5) 9 0 =
      some [⟨0, [1, 2], 30, []⟩, ⟨1, [3], 20, []⟩, ⟨2, [3], 10, []⟩, ⟨3, [], 5, []⟩] :=
  commitsBefore_diamond 0 1 2 3 30 20 10 5 (by decide) (by decide) (by decide)
    (by decide) (by decide) (by decide) (by decide) (by decide) (by decide)

/-- C2 counterexample: on the clock-skewed chain, the merge-list
builder appends the parent at the tail (nil anchor → `PushBack` with no
scan), producing `[child, parent]` with timestamps `[0, 5]` — the
element `0` has a committer timestamp before that of the element
following it, so the produced list is not non-increasing. -/
theorem commitsBefore_not_timeOrdered :
    getCommitsBefore skewRepo 5 0 = some [⟨0, [1], 0, []⟩, ⟨1, [], 5, []⟩] ∧
      ¬ TimeOrdered [⟨0, [1], 0, []⟩, ⟨1, [], 5, []⟩] := by
  constructor
  · decide
  · intro h
    simp only [TimeOrdered, List.chain'_cons, List.chain'_singleton, and_true] at h
    exact absurd h (by decide)

/-- One-step unfolding of the scan in its advance case (`in = in.Next()`). -/
lemma scanIns_cons2 (c x y : Commit) (rest' : List Commit)
    (hid : ¬ x.id = c.id) (ht1 : ¬ x.whenT = c.whenT)
    (ht2 : ¬ (c.whenT < x.whenT ∧ y.whenT < c.whenT)) :
    scanIns c (x :: y :: rest') =
      match scanIns c (y :: rest') with
      | ScanRes.dup => ScanRes.dup
      | ScanRes.ins k s' => ScanRes.ins (k + 1) (x :: s') := by
  conv_lhs => rw [scanIns]
  simp only [if_neg hid, if_neg ht1, if_neg ht2]

/-- Behaviour of the insertion scan on a sorted region whose first
element (the anchor value) is at least as recent as the commit: either
it finds a duplicate, or it inserts the commit at a position `k ≥ 1`
keeping the region sorted, its head, and growing it by one. -/
lemma scanIns_spec (c : Commit) (s : List Commit)
    (hh : ∀ h0, s.head? = some h0 → c.whenT ≤ h0.whenT)
    (hs : List.Chain' (fun p q => q.whenT ≤ p.whenT) s) (hne : s ≠ []) :
    ∀ k s', scanIns c s = ScanRes.ins k s' →
      List.Chain' (fun p q => q.whenT ≤ p.whenT) s' ∧
        s'.head? = s.head? ∧ s'.length = s.length + 1 ∧ s'[k]? = some c ∧ 1 ≤ k := by
  induction s with
  | nil => cases hne rfl
  | cons x rest ih =>
    intro k s' hscan
    have hcx : c.whenT ≤ x.whenT := hh x rfl
    by_cases hid : x.id = c.id
    · simp [scanIns, hid] at hscan
    · match rest with
      | [] =>
        simp only [scanIns, if_neg hid] at hscan
        cases hscan
        refine ⟨?_, rfl, rfl, rfl, le_refl 1⟩
        exact List.chain'_cons.mpr ⟨hcx, List.chain'_singleton c⟩
      | y :: rest' =>
        have hxy : y.whenT ≤ x.whenT := (List.chain'_cons.mp hs).1
        have hrest : List.Chain' (fun p q => q.whenT ≤ p.whenT) (y :: rest') :=
          (List.chain'_cons.mp hs).2
        by_cases ht1 : x.whenT = c.whenT
        · simp only [scanIns, if_neg hid, if_pos ht1] at hscan
          cases hscan
          refine ⟨?_, rfl, rfl, rfl, le_refl 1⟩
          refine List.chain'_cons.mpr ⟨hcx, List.chain'_cons.mpr ⟨?_, hrest⟩⟩
          omega
        · by_cases ht2 : c.whenT < x.whenT ∧ y.whenT < c.whenT
          · simp only [scanIns, if_neg hid, if_neg ht1, if_pos ht2] at hscan
            cases hscan
            refine ⟨?_, rfl, rfl, rfl, le_refl 1⟩
            exact List.chain'_cons.mpr ⟨hcx,
              List.chain'_cons.mpr ⟨ht2.2.le, hrest⟩⟩
          · rw [scanIns_cons2 c x y rest' hid ht1 ht2] at hscan
            rcases hrec : scanIns c (y :: rest') with _ | ⟨k0, s0⟩
            · rw [hrec] at hscan; cases hscan
            · rw [hrec] at hscan
              cases hscan
              have hcy : c.whenT ≤ y.whenT := by
                have hcx' : c.whenT < x.whenT := lt_of_le_of_ne hcx (fun h => ht1 h.symm)
                have : ¬ y.whenT < c.whenT := fun hy => ht2 ⟨hcx', hy⟩
                omega
              have ihr := ih (fun h0 hh0 => by
                  cases hh0; exact hcy) hrest (by simp) k0 s0 hrec
              obtain ⟨ich, ihd, iln, igt, ik⟩ := ihr
              refine ⟨?_, rfl, ?_, ?_, ?_⟩
              · refine List.chain'_cons'.mpr ⟨?_, ich⟩
                intro z hz
                rw [ihd] at hz
                cases hz
                exact hxy
              · simpa using iln
              · simpa using igt
              · omega

/-- Main invariant of the merge-list recursion under monotone clocks:
a successful call keeps the output list time-ordered, never modifies
the list up to its anchor bound, and never shrinks the list. -/
lemma cbAux_invariant (getC : Nat → Option Commit) (hm : Mono getC) :
    ∀ (fuel : Nat) (anchor : Option Nat) (l : List Commit)
      (task : Sum Nat (List Nat)) (l' : List Commit),
      TimeOrdered l → TaskOK getC l anchor task →
      cbAux getC fuel anchor l task = some l' →
      TimeOrdered l' ∧
        l'.take (anchorBound anchor l) = l.take (anchorBound anchor l) ∧
        l.length ≤ l'.length := by
  intro fuel
  induction fuel with
  | zero =>
    intro anchor l task l' _ _ hrun
    simp [cbAux] at hrun
  | succ f ih =>
    intro anchor l task l' hsort htask hrun
    match task with
    | Sum.inl id =>
      rcases anchor with _ | a
      · -- nil anchor: append at the tail
        simp only [cbAux] at hrun
        rcases hc : lookupCommit getC id with _ | commit
        · simp only [hc] at hrun
          cases hrun
        · simp only [hc] at hrun
          have hsort1 : TimeOrdered (l ++ [commit]) := by
            refine List.chain'_append.mpr ⟨hsort, List.chain'_singleton commit, ?_⟩
            intro z hz w hw
            cases hw
            exact (htask : AnchorHyp getC l none id) commit hc z (Option.mem_def.mp hz)
          have htask1 : TaskOK getC (l ++ [commit])
              (if 1 < commit.parents.length then some l.length else none)
              (Sum.inr commit.parents) := by
            by_cases hmer : 1 < commit.parents.length
            · rw [if_pos hmer]
              refine ⟨fun h => Option.noConfusion h, ?_⟩
              intro p hp
              exact ⟨commit, List.getElem?_concat_length l commit,
                fun pc hpc => hm id commit hc p hp pc hpc⟩
            · rw [if_neg hmer]
              refine ⟨fun _ => Nat.le_of_not_lt hmer, ?_⟩
              intro p hp pc hpc z hz
              rw [List.getLast?_concat] at hz
              cases hz
              exact hm id commit hc p hp pc hpc
          obtain ⟨s1, t1, n1⟩ := ih _ _ _ _ hsort1 htask1 hrun
          have hb : anchorBound
              (if 1 < commit.parents.length then some l.length else none)
              (l ++ [commit]) = l.length + 1 := by
            by_cases hmer : 1 < commit.parents.length
            · rw [if_pos hmer]
            · rw [if_neg hmer]
              simp [anchorBound]
          rw [hb] at t1
          refine ⟨s1, ?_, ?_⟩
          · show l'.take l.length = l.take l.length
            have hstep : l'.take l.length = (l ++ [commit]).take l.length :=
              take_eq_of_take_eq (Nat.le_succ _) t1
            rw [hstep, List.take_left, List.take_length]
          · have : (l ++ [commit]).length = l.length + 1 := by simp
            omega
      · -- live anchor: scan and insert
        simp only [cbAux] at hrun
        rcases hc : lookupCommit getC id with _ | commit
        · simp only [hc] at hrun
          cases hrun
        · simp only [hc] at hrun
          obtain ⟨av, hav, hbd⟩ := (htask : AnchorHyp getC l (some a) id)
          have ha : a < l.length := by
            rcases List.getElem?_eq_some.mp hav with ⟨h, _⟩; exact h
          have hdrop : l.drop a = av :: l.drop (a + 1) := by
            rcases List.getElem?_eq_some.mp hav with ⟨h, hget⟩
            have := List.drop_eq_getElem_cons (l := l) h
            rw [hget] at this
            exact this
          have hparts := List.chain'_append.mp
            (show List.Chain' (fun p q => q.whenT ≤ p.whenT) (l.take a ++ l.drop a) by
              rw [List.take_append_drop]; exact hsort)
          have lenta : (l.take a).length = a := by
            rw [List.length_take]; exact inf_eq_left.mpr ha.le
          rcases hscan : scanIns commit (l.drop a) with _ | ⟨k, s'⟩
          · simp only [hscan] at hrun
            cases hrun
            exact ⟨hsort, rfl, le_refl _⟩
          · simp only [hscan] at hrun
            obtain ⟨sch, schd, scln, scget, sck⟩ :=
              scanIns_spec commit (l.drop a)
                (fun h0 hh0 => by rw [hdrop] at hh0; cases hh0; exact hbd commit hc)
                hparts.2.1 (by rw [hdrop]; simp) k s' hscan
            have hsort1 : TimeOrdered (l.take a ++ s') := by
              refine List.chain'_append.mpr ⟨hparts.1, sch, ?_⟩
              intro z hz w hw
              rw [schd] at hw
              exact hparts.2.2 z hz w hw
            have hlen1 : (l.take a ++ s').length = l.length + 1 := by
              rw [List.length_append, lenta, scln, List.length_drop]
              omega
            have hgetk : (l.take a ++ s')[a + k]? = some commit := by
              rw [List.getElem?_append_right (by rw [lenta]; omega), lenta,
                show a + k - a = k from by omega]
              exact scget
            have hget0 : (l.take a ++ s')[a]? = some av := by
              rw [List.getElem?_append_right (by rw [lenta]), lenta,
                show a - a = 0 from by omega, ← List.head?_eq_getElem?, schd, hdrop]
              rfl
            have htake1 : (l.take a ++ s').take (a + 1) = l.take (a + 1) := by
              rw [List.take_append_eq_append_take, List.take_take, lenta,
                inf_eq_right.mpr (Nat.le_succ a),
                show a + 1 - a = 1 from by omega,
                List.take_one, schd, hdrop, List.take_succ, hav]
              rfl
            have htask1 : TaskOK getC (l.take a ++ s')
                (if 1 < commit.parents.length then some (a + k) else some a)
                (Sum.inr commit.parents) := by
              by_cases hmer : 1 < commit.parents.length
              · rw [if_pos hmer]
                refine ⟨fun h => Option.noConfusion h, ?_⟩
                intro p hp
                exact ⟨commit, hgetk, fun pc hpc => hm id commit hc p hp pc hpc⟩
              · rw [if_neg hmer]
                refine ⟨fun h => Option.noConfusion h, ?_⟩
                intro p hp
                exact ⟨av, hget0,
                  fun pc hpc => le_trans (hm id commit hc p hp pc hpc) (hbd commit hc)⟩
            obtain ⟨s1, t1, n1⟩ := ih _ _ _ _ hsort1 htask1 hrun
            have hbnd : a + 1 ≤ anchorBound
                (if 1 < commit.parents.length then some (a + k) else some a)
                (l.take a ++ s') := by
              by_cases hmer : 1 < commit.parents.length
              · rw [if_pos hmer]
                show a + 1 ≤ a + k + 1
                omega
              · rw [if_neg hmer]
            refine ⟨s1, ?_, ?_⟩
            · show l'.take (a + 1) = l.take (a + 1)
              have hstep : l'.take (a + 1) = (l.take a ++ s').take (a + 1) :=
                take_eq_of_take_eq hbnd t1
              rw [hstep, htake1]
            · rw [hlen1] at n1
              omega
    | Sum.inr [] =>
      simp only [cbAux] at hrun
      cases hrun
      exact ⟨hsort, rfl, le_refl _⟩
    | Sum.inr (p :: ps) =>
      simp only [cbAux] at hrun
      rcases h1 : cbAux getC f anchor l (Sum.inl p) with _ | l₁
      · simp only [h1] at hrun
        cases hrun
      · simp only [h1] at hrun
        obtain ⟨s1, t1, n1⟩ :=
          ih anchor l (Sum.inl p) l₁ hsort
            ((htask : _ ∧ _).2 p (List.mem_cons_self p ps)) h1
        rcases anchor with _ | a
        · -- nil anchor: at most one parent, so ps is empty
          have hps : ps = [] := by
            cases ps with
            | nil => rfl
            | cons q qs =>
              exact absurd ((htask : _ ∧ _).1 rfl)
                (by simp only [List.length_cons]; omega)
          subst hps
          have htask2 : TaskOK getC l₁ none (Sum.inr ([] : List Nat)) :=
            ⟨fun _ => by simp, by simp⟩
          obtain ⟨s2, t2, n2⟩ := ih none l₁ (Sum.inr []) l' s1 htask2 hrun
          refine ⟨s2, ?_, le_trans n1 n2⟩
          show l'.take l.length = l.take l.length
          have hstep : l'.take l.length = l₁.take l.length :=
            take_eq_of_take_eq (n1 : l.length ≤ l₁.length) t2
          rw [hstep]
          exact t1
        · have htask2 : TaskOK getC l₁ (some a) (Sum.inr ps) := by
            refine ⟨fun h => Option.noConfusion h, ?_⟩
            intro q hq
            obtain ⟨av, hav, hbd⟩ :=
              (htask : _ ∧ _).2 q (List.mem_cons_of_mem p hq)
            refine ⟨av, ?_, hbd⟩
            have h1a : (l₁.take (a + 1))[a]? = (l.take (a + 1))[a]? := by rw [t1]
            rw [List.getElem?_take, List.getElem?_take,
              if_pos (Nat.lt_succ_self a), if_pos (Nat.lt_succ_self a)] at h1a
            rw [h1a]
            exact hav
          obtain ⟨s2, t2, n2⟩ := ih (some a) l₁ (Sum.inr ps) l' s1 htask2 hrun
          exact ⟨s2, t2.trans t1, le_trans n1 n2⟩

/-- C2 amended: provided every parent's committer timestamp is not
after its child's (`Mono`), every successful `getCommitsBefore` run
produces a list ordered by non-increasing committer timestamp. -/
theorem commitsBefore_timeOrdered (getC : Nat → Option Commit) (hm : Mono getC)
    (fuel id : Nat) (l' : List Commit)
    (h : getCommitsBefore getC fuel id = some l') : TimeOrdered l' := by
  refine (cbAux_invariant getC hm fuel none [] (Sum.inl id) l' ?_ ?_ h).1
  · exact List.chain'_nil
  · intro c _ z hz
    cases hz

lemma mono_diamondRepo : Mono (diamondRepo 0 1 2 3 30 20 10 5) := by
  intro id c hc p hp pc hpc
  by_cases h0 : id = 0
  · subst h0
    simp [lookupCommit, diamondRepo] at hc
    cases hc
    simp at hp
    rcases hp with rfl | rfl
    · simp [lookupCommit, diamondRepo] at hpc
      cases hpc
      decide
    · simp [lookupCommit, diamondRepo] at hpc
      cases hpc
      decide
  · by_cases h1 : id = 1
    · subst h1
      simp [lookupCommit, diamondRepo] at hc
      cases hc
      simp at hp
      subst hp
      simp [lookupCommit, diamondRepo] at hpc
      cases hpc
      decide
    · by_cases h2 : id = 2
      · subst h2
        simp [lookupCommit, diamondRepo] at hc
        cases hc
        simp at hp
        subst hp
        simp [lookupCommit, diamondRepo] at hpc
        cases hpc
        decide
      · by_cases h3 : id = 3
        · subst h3
          simp [lookupCommit, diamondRepo] at hc
          cases hc
          simp at hp
        · simp [lookupCommit, diamondRepo, h0, h1, h2, h3] at hc

/-- Witness for `commitsBefore_timeOrdered`: the concrete monotone
diamond produces a time-ordered list. -/
theorem commitsBefore_timeOrdered_witness :
    TimeOrdered [⟨0, [1, 2], 30, []⟩, ⟨1, [3], 20, []⟩, ⟨2, [3], 10, []⟩, ⟨3, [], 5, []⟩] :=
  commitsBefore_timeOrdered (diamondRepo 0 1 2 3 30 20 10 5) mono_diamondRepo 9 0
    [⟨0, [1, 2], 30, []⟩, ⟨1, [3], 20, []⟩, ⟨2, [3], 10, []⟩, ⟨3, [], 5, []⟩] (by decide)

lemma headMatches_mem {x : Char} : ∀ (n hay : List Char), x ∈ n →
    headMatches n hay = true → x ∈ hay
  | [], _, hx, _ => absurd hx (List.not_mem_nil x)
  | _ :: _, [], _, h => by cases h
  | n0 :: ns, h0 :: hs, hx, h => by
    simp only [headMatches, Bool.and_eq_true, decide_eq_true_eq] at h
    rcases List.mem_cons.mp hx with rfl | hx'
    · rw [h.1]
      exact List.mem_cons_self h0 hs
    · exact List.mem_cons_of_mem h0 (headMatches_mem ns hs hx' h.2)

lemma takeToNl_none (l : List Char) (h : ('\n' : Char) ∉ l) : takeToNl l = none := by
  induction l with
  | nil => rfl
  | cons c rest ih =>
    rw [takeToNl, if_neg (fun hc => h (by rw [← hc]; exact List.mem_cons_self c rest)),
      ih (fun hm => h (List.mem_cons_of_mem c hm))]
    rfl

lemma takeToNl_append (b rest : List Char) (h : ('\n' : Char) ∉ b) :
    takeToNl (b ++ '\n' :: rest) = some b := by
  induction b with
  | nil => rw [List.nil_append, takeToNl, if_pos rfl]
  | cons c cs ih =>
    rw [List.cons_append, takeToNl,
      if_neg (fun hc => h (by rw [← hc]; exact List.mem_cons_self c cs)),
      ih (fun hm => h (List.mem_cons_of_mem c hm))]
    rfl

/-- A string of hex digits cannot contain the `':'` of `"ref: "`, so
the symbolic-ref regexp never matches it. -/
lemma refMatch_of_hex (s : List Char) (h : s.all isHexChar = true) :
    refMatch s = none := by
  induction s with
  | nil => rfl
  | cons c rest ih =>
    have hcond : headMatches ['r', 'e', 'f', ':', ' '] (c :: rest) = false := by
      cases hcase : headMatches ['r', 'e', 'f', ':', ' '] (c :: rest) with
      | false => rfl
      | true =>
        have hmem : (':' : Char) ∈ c :: rest :=
          headMatches_mem ['r', 'e', 'f', ':', ' '] (c :: rest) (by decide) hcase
        have hx := List.all_eq_true.mp h ':' hmem
        exact absurd hx (by decide)
    rw [refMatch, if_neg (by rw [hcond]; exact Bool.false_ne_true)]
    have h2 : rest.all isHexChar = true := by
      simp only [List.all_cons, Bool.and_eq_true] at h
      exact h.2
    exact ih h2

/-- A newline-free string (such as a packed-refs scanner line) never
matches the symbolic-ref regexp. -/
lemma refMatch_no_newline (s : List Char) (h : ('\n' : Char) ∉ s) :
    refMatch s = none := by
  induction s with
  | nil => rfl
  | cons c rest ih =>
    rw [refMatch]
    by_cases hm : headMatches ['r', 'e', 'f', ':', ' '] (c :: rest) = true
    · rw [if_pos hm]
      exact takeToNl_none _
        (fun hmem => h (List.mem_cons_of_mem c (List.mem_of_mem_drop hmem)))
    · rw [if_neg hm]
      exact ih (fun hmem => h (List.mem_cons_of_mem c hmem))

lemma refMatch_refLine (b : List Char) (h : ('\n' : Char) ∉ b) :
    refMatch (refLine b) = some b := by
  show refMatch ('r' :: 'e' :: 'f' :: ':' :: ' ' :: (b ++ ['\n'])) = some b
  have hcond : headMatches ['r', 'e', 'f', ':', ' ']
      ('r' :: 'e' :: 'f' :: ':' :: ' ' :: (b ++ ['\n'])) = true := rfl
  rw [refMatch, if_pos hcond]
  exact takeToNl_append b [] h

/-- The sha1 branch of the resolver: content that is exactly a
40-character hex identifier resolves to itself. -/
lemma resolve_hex_content (fs : RefFS) (p idc : List Char) (fuel : Nat)
    (hf : refContent fs p = Except.ok idc)
    (hlen : idc.length = 40) (hhex : idc.all isHexChar = true) :
    getCommitIdOfRef fs (fuel + 1) p = some (Except.ok idc) := by
  have htake : idc.take 40 = idc := by rw [← hlen]; exact List.take_length idc
  have hsha : IsSha1 (idc.take 40) = true := by
    rw [htake, IsSha1, hlen]
    simp [hhex]
  simp only [getCommitIdOfRef, hf, refMatch_of_hex idc hhex]
  rw [if_neg (by omega), if_pos hsha, htake]

/-- C3: (a) a loose ref holding a valid 40-hex identifier resolves to
exactly that identifier; (b) a symbolic chain `A → B → <id>` (the link
content matching `"ref: <target>\n"`) resolves to `<id>`; (c) a ref
whose loose file is absent but which has a packed-refs line resolves
exactly as a loose ref whose content is that line's bytes would. -/
theorem refResolution_spec :
    (∀ (fs : RefFS) (p idc : List Char) (fuel : Nat),
      fs.loose p = some idc → idc.length = 40 → idc.all isHexChar = true →
      getCommitIdOfRef fs (fuel + 1) p = some (Except.ok idc)) ∧
    (∀ (fs : RefFS) (pa pb idc : List Char) (fuel : Nat),
      fs.loose pa = some (refLine pb) → ('\n' : Char) ∉ pb →
      fs.loose pb = some idc → idc.length = 40 → idc.all isHexChar = true →
      getCommitIdOfRef fs (fuel + 2) pa = some (Except.ok idc)) ∧
    (∀ (fs : RefFS) (p line : List Char) (fuel : Nat),
      fs.loose p = none → getCommitIdOfPackedRef fs p = Except.ok line →
      ('\n' : Char) ∉ line →
      getCommitIdOfRef fs (fuel + 1) p =
        getCommitIdOfRef
          (RefFS.mk (fun q => if q = p then some line else fs.loose q) fs.packed)
          (fuel + 1) p) := by
  refine ⟨?_, ?_, ?_⟩
  · intro fs p idc fuel hl hlen hhex
    exact resolve_hex_content fs p idc fuel (by rw [refContent, hl]) hlen hhex
  · intro fs pa pb idc fuel ha hnl hb hlen hhex
    have hca : refContent fs pa = Except.ok (refLine pb) := by rw [refContent, ha]
    show getCommitIdOfRef fs (fuel + 1 + 1) pa = some (Except.ok idc)
    simp only [getCommitIdOfRef, hca, refMatch_refLine pb hnl]
    exact resolve_hex_content fs pb idc fuel (by rw [refContent, hb]) hlen hhex
  · intro fs p line fuel hl hpk hnl
    have hca : refContent fs p = Except.ok line := by rw [refContent, hl]; exact hpk
    have hcb : refContent
        (RefFS.mk (fun q => if q = p then some line else fs.loose q) fs.packed) p =
        Except.ok line := by
      rw [refContent]
      simp
    simp only [getCommitIdOfRef, hca, hcb, refMatch_no_newline line hnl]

/-- C7: content that is not a symbolic ref and is either shorter than
40 characters or whose first 40 characters are not a hex identifier
makes resolution fail with one of the two malformed-identifier errors —
never success, never a not-found error. -/
theorem refResolution_malformed (fs : RefFS) (p f : List Char) (fuel : Nat)
    (hf : refContent fs p = Except.ok f) (hnm : refMatch f = none)
    (hbad : f.length < 40 ∨ IsSha1 (f.take 40) = false) :
    getCommitIdOfRef fs (fuel + 1) p =
      some (Except.error
        (if f.length < 40 then RefError.shaTooShort else RefError.badSha (f.take 40))) := by
  simp only [getCommitIdOfRef, hf, hnm]
  by_cases hlen : f.length < 40
  · rw [if_pos hlen, if_pos hlen]
  · rcases hbad with h | h
    · exact absurd h hlen
    · rw [if_neg hlen, if_neg hlen, if_neg (by rw [h]; exact Bool.false_ne_true)]

/-- C9: the resolver has no cycle guard: on a ref pointing to itself —
directly, or transitively through a second ref — resolution never
returns, whatever fuel the `goto start` loop is given. -/
theorem refResolution_cycle_diverges :
    (∀ fuel, getCommitIdOfRef selfRefFS fuel ['s'] = none) ∧
    (∀ fuel, getCommitIdOfRef twoCycleFS fuel ['a'] = none ∧
      getCommitIdOfRef twoCycleFS fuel ['b'] = none) := by
  constructor
  · intro fuel
    induction fuel with
    | zero => rfl
    | succ f ih =>
      have hc : refContent selfRefFS ['s'] = Except.ok (refLine ['s']) := by
        rw [refContent]
        simp [selfRefFS]
      simp only [getCommitIdOfRef, hc, refMatch_refLine ['s'] (by decide)]
      exact ih
  · intro fuel
    induction fuel with
    | zero => exact ⟨rfl, rfl⟩
    | succ f ih =>
      constructor
      · have hc : refContent twoCycleFS ['a'] = Except.ok (refLine ['b']) := by
          rw [refContent]
          simp [twoCycleFS]
        simp only [getCommitIdOfRef, hc, refMatch_refLine ['b'] (by decide)]
        exact ih.2
      · have hc : refContent twoCycleFS ['b'] = Except.ok (refLine ['a']) := by
          rw [refContent]
          simp [twoCycleFS]
        simp only [getCommitIdOfRef, hc, refMatch_refLine ['a'] (by decide)]
        exact ih.1

/-- Witness for `refResolution_spec` on `witnessFS`: direct hex ref,
two-hop symbolic chain, and packed-refs fallback. -/
theorem refResolution_spec_witness :
    getCommitIdOfRef witnessFS 3 "refs/heads/dev".toList = some (Except.ok hex40) ∧
    getCommitIdOfRef witnessFS 4 "refs/heads/master".toList = some (Except.ok hex40) ∧
    getCommitIdOfRef witnessFS 3 "refs/tags/v1".toList =
      getCommitIdOfRef
        (RefFS.mk
          (fun q => if q = "refs/tags/v1".toList
            then some (hex40 ++ (' ' :: "refs/tags/v1".toList)) else witnessFS.loose q)
          witnessFS.packed)
        3 "refs/tags/v1".toList :=
  ⟨refResolution_spec.1 witnessFS "refs/heads/dev".toList hex40 2
      (by decide) (by decide) (by decide),
   refResolution_spec.2.1 witnessFS "refs/heads/master".toList "refs/heads/dev".toList
      hex40 2 (by decide) (by decide) (by decide) (by decide) (by decide),
   refResolution_spec.2.2 witnessFS "refs/tags/v1".toList
      (hex40 ++ (' ' :: "refs/tags/v1".toList)) 2 (by decide) (by decide) (by decide)⟩

/-- Witness for `refResolution_malformed` on `shortFS`. -/
theorem refResolution_malformed_witness :
    getCommitIdOfRef shortFS 1 ['h'] = some (Except.error RefError.shaTooShort) := by
  have h := refResolution_malformed shortFS ['h'] ['z', 'z'] 0
    (by rw [refContent]; simp [shortFS]) (by decide) (Or.inl (by decide))
  simpa using h

/-- C4: when `getCommit(id)` succeeds, calling it again on the
resulting repository state returns the very same commit value and the
same cache, and performs no raw-object fetch: the second call is a pure
cache hit. -/
theorem getCommit_memoizes (store : Nat → Option (List Char))
    (decode : List Char → Option Commit) (cache : Nat → Option Commit)
    (id : Nat) (c : Commit) (cache' : Nat → Option Commit) (b : Bool)
    (h : getCommit store decode cache id = (some c, cache', b)) :
    getCommit store decode cache' id = (some c, cache', false) := by
  unfold getCommit at h ⊢
  rcases hc : cache id with _ | c0
  · simp only [hc] at h
    rcases hs : store id with _ | data
    · simp only [hs] at h
      cases h
    · simp only [hs] at h
      rcases hd : decode data with _ | c0
      · simp only [hd] at h
        cases h
      · simp only [hd, Prod.mk.injEq, Option.some.injEq] at h
        obtain ⟨h1, h2, h3⟩ := h
        subst h1
        subst h2
        simp
  · simp only [hc, Prod.mk.injEq, Option.some.injEq] at h
    obtain ⟨h1, h2, h3⟩ := h
    subst h1
    subst h2
    simp only [hc]

/-- C10: when `getCommit(id)` fails — missing raw object, read
failure, or decode failure — the cache is returned unchanged (no entry
is created for `id`), the failure happened after a real fetch attempt,
and an immediate retry behaves identically (it fetches again rather
than seeing a cached failure). -/
theorem getCommit_error_no_cache (store : Nat → Option (List Char))
    (decode : List Char → Option Commit) (cache : Nat → Option Commit)
    (id : Nat) (cache' : Nat → Option Commit) (b : Bool)
    (h : getCommit store decode cache id = (none, cache', b)) :
    cache' = cache ∧ b = true ∧
      getCommit store decode cache' id = getCommit store decode cache id := by
  unfold getCommit at h ⊢
  rcases hc : cache id with _ | c0
  · simp only [hc] at h
    rcases hs : store id with _ | data
    · simp only [hs, Prod.mk.injEq] at h
      obtain ⟨h4, h5⟩ := h.2
      subst h4
      refine ⟨rfl, h5.symm, ?_⟩
      rw [hc]
    · simp only [hs] at h
      rcases hd : decode data with _ | c1
      · simp only [hd, Prod.mk.injEq] at h
        obtain ⟨h4, h5⟩ := h.2
        subst h4
        refine ⟨rfl, h5.symm, ?_⟩
        rw [hc]
      · simp only [hd] at h
        cases h
  · simp only [hc] at h
    cases h

/-- Witness for `getCommit_memoizes`: after a first successful fetch of
object `5`, the second call is a cache hit with no fetch. -/
theorem getCommit_memoizes_witness :
    getCommit wStore wDecode
        (fun i => if i = 5 then some ⟨5, [], 7, []⟩ else wCache i) 5 =
      (some ⟨5, [], 7, []⟩,
        fun i => if i = 5 then some ⟨5, [], 7, []⟩ else wCache i, false) :=
  getCommit_memoizes wStore wDecode wCache 5 ⟨5, [], 7, []⟩
    (fun i => if i = 5 then some ⟨5, [], 7, []⟩ else wCache i) true rfl

/-- Witness for `getCommit_error_no_cache`: object `6` is missing, the
cache stays empty and the retry behaves identically. -/
theorem getCommit_error_no_cache_witness :
    wCache = wCache ∧ (true : Bool) = true ∧
      getCommit wStore wDecode wCache 6 = getCommit wStore wDecode wCache 6 :=
  getCommit_error_no_cache wStore wDecode wCache 6 wCache true rfl

/-- The loop agrees with take-while over the first-parent chain. -/
lemma cbLoop_eq_takeWhile (getC : Nat → Option Commit) (before : Commit) :
    ∀ (n : Nat) (cur : Commit) (chain : List Commit),
      fpChain getC n cur = some chain →
      ∀ (m : Nat) (res : List Commit), cbLoop getC before m cur = some res →
      res = commitsBetweenClaim chain before := by
  intro n
  induction n with
  | zero =>
    intro cur chain hch
    simp [fpChain] at hch
  | succ n ih =>
    intro cur chain hch m res hres
    match m with
    | 0 => simp [cbLoop] at hres
    | m + 1 =>
      simp only [fpChain] at hch
      simp only [cbLoop] at hres
      rcases hp : cur.parents with _ | ⟨p0, ps⟩
      · simp only [hp, Option.some.injEq] at hch hres
        subst hch
        by_cases hid : cur.id = before.id
        · rw [if_pos hid] at hres
          cases hres
          simp [commitsBetweenClaim, List.takeWhile_cons, hid]
        · rw [if_neg hid] at hres
          cases hres
          simp [commitsBetweenClaim, List.takeWhile_cons, hid]
      · simp only [hp] at hch hres
        rcases hl : lookupCommit getC p0 with _ | next
        · simp only [hl] at hch
          cases hch
        · simp only [hl] at hch hres
          rcases hch2 : fpChain getC n next with _ | chain0
          · simp only [hch2, Option.map_none'] at hch
            cases hch
          · simp only [hch2, Option.map_some', Option.some.injEq] at hch
            subst hch
            by_cases hid : cur.id = before.id
            · rw [if_pos hid] at hres
              cases hres
              simp [commitsBetweenClaim, List.takeWhile_cons, hid]
            · rw [if_neg hid] at hres
              rcases hres2 : cbLoop getC before m next with _ | res0
              · simp only [hres2, Option.map_none'] at hres
                cases hres
              · simp only [hres2, Option.map_some', Option.some.injEq] at hres
                subst hres
                have hrec := ih next chain0 hch2 m res0 hres2
                simp [commitsBetweenClaim, List.takeWhile_cons, hid, hrec]

/-- C5 counterexample: for a parentless `last` whose id differs from
`before`'s, the claim's walk visits `last` and appends it (take-while
over the one-commit chain keeps it), but `CommitsBetween` returns the
empty list: the initial `ParentCount() == 0` guard exits before
visiting `last`. -/
theorem commitsBetween_claim_counterexample :
    commitsBetween emptyRepo 3 ⟨0, [], 0, []⟩ ⟨1, [], 0, []⟩ = some [] ∧
    fpChain emptyRepo 3 ⟨0, [], 0, []⟩ = some [⟨0, [], 0, []⟩] ∧
    commitsBetweenClaim [⟨0, [], 0, []⟩] ⟨1, [], 0, []⟩ = [⟨0, [], 0, []⟩] ∧
    (([] : List Commit) ≠ [(⟨0, [], 0, []⟩ : Commit)]) := by
  refine ⟨by decide, by decide, by decide, by decide⟩

/-- C5 amended: `CommitsBetween` walks only the first-parent chain,
appending each visited commit until one carrying `before`'s id is
reached (that one not appended) or the chain is exhausted at a
parentless commit, and it succeeds rather than signalling when `before`
is not an ancestor — except that when `last` itself is parentless the
initial guard returns the empty list without visiting `last`. -/
theorem commitsBetween_spec (getC : Nat → Option Commit) (last before : Commit)
    (n m : Nat) (chain res : List Commit)
    (hch : fpChain getC n last = some chain)
    (hres : commitsBetween getC m last before = some res) :
    res = if last.parents = [] then [] else commitsBetweenClaim chain before := by
  unfold commitsBetween at hres
  by_cases hp : last.parents = []
  · rw [if_pos hp] at hres ⊢
    cases hres
    rfl
  · rw [if_neg hp] at hres ⊢
    exact cbLoop_eq_takeWhile getC before n last chain hch m res hres

/-- Witness for `commitsBetween_spec`: on the chain `0 → 1 → 2`, the
walk from `0` stopping before `1` produces `[0]`, matching the
take-while description. -/
theorem commitsBetween_spec_witness :
    commitsBetween chainRepo 5 ⟨0, [1], 3, []⟩ ⟨1, [2], 2, []⟩ = some [⟨0, [1], 3, []⟩] ∧
    ([(⟨0, [1], 3, []⟩ : Commit)] =
      if (⟨0, [1], 3, []⟩ : Commit).parents = [] then []
      else commitsBetweenClaim [⟨0, [1], 3, []⟩, ⟨1, [2], 2, []⟩, ⟨2, [], 1, []⟩]
        ⟨1, [2], 2, []⟩) :=
  ⟨by decide,
   commitsBetween_spec chainRepo ⟨0, [1], 3, []⟩ ⟨1, [2], 2, []⟩ 5 5
     [⟨0, [1], 3, []⟩, ⟨1, [2], 2, []⟩, ⟨2, [], 1, []⟩] [⟨0, [1], 3, []⟩]
     (by decide) (by decide)⟩

/-- One pager step either keeps a commit and decrements the remaining
take budget, or leaves the budget unchanged. -/
lemma pagerStep_take (f : Option (Commit → Bool)) (s : Nat × Nat) (c : Commit) :
    (pagerStep f s c).2.2 +
      (if (pagerStep f s c).1 = VisitAct.keep then 1 else 0) = s.2 := by
  rcases s with ⟨sk, tk⟩
  simp only [pagerStep]
  split
  · split
    · simp
    · split
      · simp
        omega
      · simp
  · simp

lemma lookupCommit_id (getC : Nat → Option Commit) (id : Nat) (c : Commit)
    (h : lookupCommit getC id = some c) : c.id = id := by
  unfold lookupCommit at h
  rcases hg : getC id with _ | c0
  · rw [hg] at h
    cases h
  · simp only [hg, Option.map_some'] at h
    cases h
    rfl

/-- A successful walk with a pager visitor keeps the sum of kept
commits and remaining take budget invariant, so the output never grows
beyond the initial budget. -/
lemma walkAux_pager_bound (getC : Nat → Option Commit)
    (f : Option (Commit → Bool)) (rel : Option (Commit → Bool)) :
    ∀ (fuel : Nat) (st : WalkSt (Nat × Nat)) (task : Sum Nat (List Nat))
      (st' : WalkSt (Nat × Nat)),
      walkAux getC (pagerStep f) rel fuel st task = some st' →
      st'.out.length + st'.vs.2 = st.out.length + st.vs.2 := by
  intro fuel
  induction fuel with
  | zero =>
    intro st task st' h
    simp [walkAux] at h
  | succ n ih =>
    intro st task st' h
    match task with
    | Sum.inl id =>
      simp only [walkAux] at h
      by_cases hh : st.halted = true
      · rw [if_pos hh] at h
        cases h
        rfl
      · rw [if_neg hh] at h
        by_cases hseen : st.seen.contains id = true
        · rw [if_pos hseen] at h
          cases h
          rfl
        · rw [if_neg hseen] at h
          rcases hc : lookupCommit getC id with _ | c
          · simp only [hc] at h
            cases h
          · simp only [hc] at h
            have ht := pagerStep_take f st.vs c
            split at h
            · rcases hstep : pagerStep f st.vs c with ⟨act, vs'⟩
              rw [hstep] at ht
              simp only [hstep] at h
              match act, h, ht with
              | VisitAct.keep, h, ht =>
                have h2 := ih _ _ _ h
                simp at h2 ht
                omega
              | VisitAct.pass, h, ht =>
                have h2 := ih _ _ _ h
                simp at h2 ht
                omega
              | VisitAct.halt, h, ht =>
                cases h
                simp at ht
                simp only []
                omega
            · have h2 := ih _ _ _ h
              exact h2
    | Sum.inr [] =>
      simp only [walkAux] at h
      cases h
      rfl
    | Sum.inr (p :: ps) =>
      simp only [walkAux] at h
      rcases h1 : walkAux getC (pagerStep f) rel n st (Sum.inl p) with _ | st1
      · simp only [h1] at h
        cases h
      · simp only [h1] at h
        have ha := ih _ _ _ h1
        have hb := ih _ _ _ h
        omega

/-- C6: `searchCommits` never returns more than 100 commits (the fixed
`ItemsPerSearch` cap), however many commits match the keyword. -/
theorem searchCommits_cap (getC : Nat → Option Commit) (fuel id : Nat)
    (keyword : List Char) (l : List Commit)
    (h : searchCommits getC fuel id keyword = some l) :
    l.length ≤ 100 := by
  unfold searchCommits at h
  rcases hw : walkAux getC
      (pagerStep (some (fun c => matchKeyword keyword c.message))) none fuel
      ⟨[], [], (0, ItemsPerSearch), false⟩ (Sum.inl id) with _ | st
  · rw [hw] at h
    cases h
  · rw [hw] at h
    simp only [Option.map_some'] at h
    cases h
    have hb := walkAux_pager_bound getC
      (some (fun c => matchKeyword keyword c.message)) none fuel _ _ _ hw
    simp only [ItemsPerSearch, List.length_nil] at hb
    omega

/-- Every commit the filtered walk adds to its output passed the
relevance filter, had its identifier recorded in the visited set, and
is the stamped result of a store lookup; the visited set only grows. -/
lemma walkAux_out_invariant {sg : Type} (getC : Nat → Option Commit)
    (step : sg → Commit → VisitAct × sg) (rel : Commit → Bool) :
    ∀ (fuel : Nat) (st : WalkSt sg) (task : Sum Nat (List Nat)) (st' : WalkSt sg),
      walkAux getC step (some rel) fuel st task = some st' →
      (∀ x, x ∈ st.seen → x ∈ st'.seen) ∧
      (∀ c, c ∈ st'.out → c ∈ st.out ∨
        (rel c = true ∧ c.id ∈ st'.seen ∧ lookupCommit getC c.id = some c)) := by
  intro fuel
  induction fuel with
  | zero =>
    intro st task st' h
    simp [walkAux] at h
  | succ n ih =>
    intro st task st' h
    match task with
    | Sum.inl id =>
      simp only [walkAux] at h
      by_cases hh : st.halted = true
      · rw [if_pos hh] at h
        cases h
        exact ⟨fun x hx => hx, fun c hc => Or.inl hc⟩
      · rw [if_neg hh] at h
        by_cases hseen : st.seen.contains id = true
        · rw [if_pos hseen] at h
          cases h
          exact ⟨fun x hx => hx, fun c hc => Or.inl hc⟩
        · rw [if_neg hseen] at h
          rcases hc : lookupCommit getC id with _ | c
          · simp only [hc] at h
            cases h
          · simp only [hc] at h
            have hcid : c.id = id := lookupCommit_id getC id c hc
            split at h
            · rcases hstep : step st.vs c with ⟨act, vs'⟩
              simp only [hstep] at h
              have hrel : rel c = true := by
                rename_i hcond
                exact hcond
              match act, h with
              | VisitAct.keep, h =>
                obtain ⟨hmono, hout⟩ := ih _ _ _ h
                refine ⟨fun x hx => hmono x (List.mem_cons_of_mem id hx), ?_⟩
                intro d hd
                rcases hout d hd with hin | hgood
                · rcases List.mem_append.mp hin with hin2 | hin2
                  · exact Or.inl hin2
                  · rcases List.mem_singleton.mp hin2 with rfl
                    refine Or.inr ⟨hrel, ?_, ?_⟩
                    · rw [hcid]
                      exact hmono id (List.mem_cons_self id st.seen)
                    · rw [hcid]
                      exact hc
                · exact Or.inr hgood
              | VisitAct.pass, h =>
                obtain ⟨hmono, hout⟩ := ih _ _ _ h
                exact ⟨fun x hx => hmono x (List.mem_cons_of_mem id hx), hout⟩
              | VisitAct.halt, h =>
                cases h
                exact ⟨fun x hx => List.mem_cons_of_mem id hx, fun c hc => Or.inl hc⟩
            · obtain ⟨hmono, hout⟩ := ih _ _ _ h
              exact ⟨fun x hx => hmono x (List.mem_cons_of_mem id hx), hout⟩
    | Sum.inr [] =>
      simp only [walkAux] at h
      cases h
      exact ⟨fun x hx => hx, fun c hc => Or.inl hc⟩
    | Sum.inr (p :: ps) =>
      simp only [walkAux] at h
      rcases h1 : walkAux getC step (some rel) n st (Sum.inl p) with _ | st1
      · simp only [h1] at h
        cases h
      · simp only [h1] at h
        obtain ⟨m1, o1⟩ := ih _ _ _ h1
        obtain ⟨m2, o2⟩ := ih _ _ _ h
        refine ⟨fun x hx => m2 x (m1 x hx), ?_⟩
        intro c hc
        rcases o2 c hc with hin | hgood
        · rcases o1 c hin with hin2 | ⟨hg1, hg2, hg3⟩
          · exact Or.inl hin2
          · exact Or.inr ⟨hg1, m2 c.id hg2, hg3⟩
        · exact Or.inr hgood

/-- C8: when the filtered walk completes and no identifier in the
walked ancestry (the visited set) denotes a commit that changed the
path, `getCommitOfRelPath` returns success carrying no commit — the
`(nil, nil)` pair — rather than an error. -/
theorem getCommitOfRelPath_none (getC : Nat → Option Commit) (rel : Commit → Bool)
    (fuel id : Nat) (st : WalkSt (Nat × Nat))
    (hw : walkAux getC (pagerStep (some rel)) (some rel) fuel
      ⟨[], [], (0, 1), false⟩ (Sum.inl id) = some st)
    (hnone : ∀ cid, cid ∈ st.seen → ∀ c, lookupCommit getC cid = some c →
      rel c = false) :
    getCommitOfRelPath getC rel fuel id = some none := by
  unfold getCommitOfRelPath
  simp only [hw]
  have hinv := (walkAux_out_invariant getC (pagerStep (some rel)) rel fuel _ _ _ hw).2
  rcases hout : st.out with _ | ⟨c, rest⟩
  · rfl
  · exfalso
    rcases hinv c (by rw [hout]; exact List.mem_cons_self c rest) with hin | hgood
    · simp at hin
    · obtain ⟨hrel, hseen, hlook⟩ := hgood
      have := hnone c.id hseen c hlook
      rw [this] at hrel
      cases hrel

/-- Witness for `searchCommits_cap`: three commits, all matching the
empty keyword, are returned — well within the cap. -/
theorem searchCommits_cap_witness :
    ([⟨0, [1], 3, []⟩, ⟨1, [2], 2, []⟩, ⟨2, [], 1, []⟩] : List Commit).length ≤ 100 :=
  searchCommits_cap chainRepo 9 0 []
    [⟨0, [1], 3, []⟩, ⟨1, [2], 2, []⟩, ⟨2, [], 1, []⟩] (by decide)

/-- Witness for `getCommitOfRelPath_none`: with no relevant commit on
the chain, the lookup succeeds with no commit. -/
theorem getCommitOfRelPath_none_witness :
    getCommitOfRelPath chainRepo relFalse 9 0 = some none :=
  getCommitOfRelPath_none chainRepo relFalse 9 0 ⟨[2, 1, 0], [], (0, 1), false⟩
    (by decide) (fun cid _ c _ => rfl)
